import Mathlib

set_option maxRecDepth 100000

/-!
# Verification of `pdf-zipper.py`

A shallow embedding of the pdf-zipper tool (`src/pdf-zipper.py`): a utility
that walks a directory tree, filters source files by extension, and emits a
single paginated document with each file's path and (line-wrapped) contents.

The embedding models:
* the font bootstrap (`ensure_font_exists`, `CodePDF.__init__` font setup);
* the exclusion-list setup and file collection loop of
  `convert_directory_to_pdf` (lines 116-158), with the `os.walk` enumeration
  supplied as an explicit input (it is an external, OS-provided collaborator);
* the per-file processing loop (lines 163-177) with per-entry read results
  supplied as explicit `Except` inputs;
* the oversize-file truncation (lines 170-172);
* the final save step and the driver's exit-code logic (lines 186-193 and
  234-247);
* CPython's `textwrap.wrap` (the callee on line 74), restricted to the
  keyword arguments the tool uses (defaults plus `width` and
  `subsequent_indent`), with Python's character classes modelled on the
  ASCII range;
* `CodePDF.write_code_block` (lines 59-90) as a sequence of emitted rows.

Effectful external interactions (network, filesystem writes, the FPDF sink) are
modelled as explicit inputs/outputs: a Boolean or `Except` value stands for
the success or failure of the external call, and printed messages are
collected in lists.
-/

namespace PdfZipper

/-! ## Oversize-file truncation (lines 170-172)

```python
if len(code) > 100000:
    code = code[:50000] + "\n\n... [File truncated due to size] ...\n\n"
```
Text is modelled as `List Char` (Python strings are sequences of code
points; `len`/slicing act on code points, matching `List.length`/`take`). -/

/-- The literal appended in place of the dropped tail of an oversize file. -/
def truncation_marker : List Char :=
  "\n\n... [File truncated due to size] ...\n\n".data

/-- Lines 170-172: replace the content of an oversize file by its first
50000 characters followed by the truncation marker. -/
def truncate_code (code : List Char) : List Char :=
  if code.length > 100000 then code.take 50000 ++ truncation_marker else code

/-! ## Exclusion-list setup (lines 121-129)

```python
if exclude is None:
    exclude = []
script_path = os.path.abspath(__file__)
if script_path not in exclude:
    exclude.append(script_path)
```
`exclude.append` mutates the caller's list object in place; the embedding
models the list state after the call as a function of the state before. -/

/-- Lines 121-123: a missing (`None`) exclude argument becomes a fresh
empty list. -/
def init_exclude (exclude : Option (List (List Char))) : List (List Char) :=
  exclude.getD []

/-- Lines 126-129: the state of the (caller-visible) exclude list after
`convert_directory_to_pdf` has appended the script's own path to it. -/
def exclude_after_append (script_path : List Char) (exclude : List (List Char)) :
    List (List Char) :=
  if script_path ∈ exclude then exclude else exclude ++ [script_path]

/-! ## File collection (lines 139-158)

```python
files_to_process = []
for root, _, files in os.walk(directory):
    for file in sorted(files):
        if any(file.endswith(ext) for ext in extensions):
            full_path = os.path.abspath(os.path.join(root, file))
            if full_path in exclude:
                print(f"Skipping excluded file: {full_path}")
                skipped_files += 1
                continue
            if full_path == script_path:
                print(f"Skipping the PDF-zipper script itself: {full_path}")
                skipped_files += 1
                continue
            relative_path = os.path.relpath(full_path, directory)
            files_to_process.append((full_path, relative_path))
```

Strings are modelled as `List Char` (Lean's `String` primitives do not
reduce in the kernel); Python's string comparison is lexicographic on code
points, which is exactly Mathlib's lexicographic `≤` on `List Char`, and
Python's stable `sorted` agrees extensionally with `insertionSort (· ≤ ·)`
because `≤` is a linear order on `List Char`.

`os.walk` is the external traversal collaborator: its enumeration — the
sequence of `(root, files)` pairs, in the order the OS yields them — is an
explicit input. The code reads but never sorts the directory component
(the `_` in `for root, _, files`), so any enumeration order the OS
produces is passed through. Paths are POSIX-joined
(`os.path.join(root, file) = root + "/" + file`) and assumed already
normalized/absolute (`directory` is absolute in `main`, so `os.walk`
roots are absolute and `os.path.abspath` is the identity on them);
`os.path.relpath(full, directory)` for `full` strictly under `directory`
drops the directory and the following separator. -/

/-- A string of the modelled program: a list of code points. -/
abbrev PyStr : Type := List Char

/-- Python `file.endswith(ext)`: suffix test on code points. -/
def py_ends_with (s e : PyStr) : Bool := e.isSuffixOf s

/-- Line 142: `any(file.endswith(ext) for ext in extensions)`. -/
def matches_extension (extensions : List PyStr) (file : PyStr) : Bool :=
  extensions.any (fun e => py_ends_with file e)

/-- `os.path.join(root, file)` for POSIX paths. -/
def path_join (root file : PyStr) : PyStr := root ++ '/' :: file

/-- `os.path.relpath(full, directory)` for `full` strictly under the
absolute, normalized `directory`: drop the directory and the separator. -/
def relpath_under (directory full : PyStr) : PyStr :=
  full.drop (directory.length + 1)

/-- Lines 108-114: the default extension allow-list. -/
def get_file_extensions : List PyStr :=
  [".py".data, ".js".data, ".ts".data, ".jsx".data, ".tsx".data, ".cpp".data,
   ".c".data, ".h".data, ".hpp".data, ".html".data, ".css".data, ".java".data,
   ".go".data, ".rs".data, ".php".data, ".rb".data, ".md".data, ".json".data,
   ".yml".data, ".yaml".data, ".sh".data, ".sql".data, ".xml".data]

/-- Lines 141-158: the body of the inner `for file in sorted(files)` loop,
acting on the `(files_to_process, skipped_files)` accumulator. -/
def collect_file_step (directory script_path : PyStr) (extensions : List PyStr)
    (exclude : List PyStr) (root : PyStr)
    (acc : List (PyStr × PyStr) × Nat) (file : PyStr) :
    List (PyStr × PyStr) × Nat :=
  if matches_extension extensions file then
    let full := path_join root file
    if full ∈ exclude then (acc.1, acc.2 + 1)
    else if full = script_path then (acc.1, acc.2 + 1)
    else (acc.1 ++ [(full, relpath_under directory full)], acc.2)
  else acc

/-- Lines 140-158: the body of the outer `for root, _, files in
os.walk(directory)` loop: run the inner loop over `sorted(files)`. -/
def collect_walk_step (directory script_path : PyStr) (extensions : List PyStr)
    (exclude : List PyStr) (acc : List (PyStr × PyStr) × Nat)
    (rf : PyStr × List PyStr) : List (PyStr × PyStr) × Nat :=
  (List.insertionSort (· ≤ ·) rf.2).foldl
    (collect_file_step directory script_path extensions exclude rf.1) acc

/-- Lines 139-158: the collection loop. The input `walk` is the `os.walk`
enumeration; the result is `files_to_process` (pairs of full and relative
path, in append order) together with the `skipped_files` count
accumulated by the two `continue` branches. -/
def collect_files (directory script_path : PyStr) (extensions : List PyStr)
    (exclude : List PyStr) (walk : List (PyStr × List PyStr)) :
    List (PyStr × PyStr) × Nat :=
  walk.foldl (collect_walk_step directory script_path extensions exclude) ([], 0)

/-- The entry the loop body of lines 141-158 appends for one file of one
directory, if any. -/
def file_entry (directory script_path : PyStr) (extensions : List PyStr)
    (exclude : List PyStr) (root file : PyStr) : Option (PyStr × PyStr) :=
  if matches_extension extensions file then
    let full := path_join root file
    if full ∈ exclude then none
    else if full = script_path then none
    else some (full, relpath_under directory full)
  else none

/-- The entries one `(root, files)` element of the walk contributes, in
order: the name-sorted files, filtered and mapped by the loop body. -/
def collect_dir (directory script_path : PyStr) (extensions : List PyStr)
    (exclude : List PyStr) (root : PyStr) (files : List PyStr) :
    List (PyStr × PyStr) :=
  (List.insertionSort (· ≤ ·) files).filterMap
    (file_entry directory script_path extensions exclude root)

/-! ## CPython `textwrap` (the callee of line 74)

Line 74-75 of the tool:

```python
wrapped_lines = textwrap.wrap(line, width=self.line_width,
                              subsequent_indent='    ' if line.startswith(' ') else '')
```

`textwrap.wrap` is embedded below with the exact defaults the call leaves
in place: `initial_indent=''`, `expand_tabs=True`, `tabsize=8`,
`replace_whitespace=True`, `fix_sentence_endings=False`,
`break_long_words=True`, `drop_whitespace=True`, `break_on_hyphens=True`,
`max_lines=None`. The pipeline is
`_munge_whitespace` (expand tabs, then translate the six recognized
whitespace characters `\t\n\x0b\x0c\r ` to spaces), `_split` (split
into indivisible chunks with the `wordsep_re` regex), and `_wrap_chunks`
(greedy line filling with long-word breaking).

Python's character classes `\w`, `[^\d\W]` and the word-punctuation
class are modelled on the ASCII range (`Char.isAlphanum` is ASCII in
Lean); all inputs evaluated here are ASCII, and the universal theorems
below do not depend on how individual characters classify. -/

/-- The six characters of `textwrap._whitespace` (`'\t\n\x0b\x0c\r '`). -/
def is_py_whitespace (c : Char) : Bool :=
  c = ' ' || c = '\t' || c = '\n' || c = '\x0b' || c = '\x0c' || c = '\r'

/-- Python's `\w` (ASCII fragment): alphanumeric or underscore. -/
def is_word_char (c : Char) : Bool := c.isAlphanum || c = '_'

/-- The regex fragment `letter = [^\d\W]` of `wordsep_re` (ASCII
fragment): a word character that is not a digit. -/
def is_letter_char (c : Char) : Bool := is_word_char c && !c.isDigit

/-- The regex fragment `word_punct = [\w!"\'&.,?]` of `wordsep_re`. -/
def is_word_punct (c : Char) : Bool :=
  is_word_char c || c = '!' || c = '"' || c = '\'' || c = '&' || c = '.' ||
    c = ',' || c = '?'

/-- Length of the run of `'-'` characters at the head of the list. -/
def hyphen_run : List Char → Nat
  | [] => 0
  | c :: rest => if c = '-' then hyphen_run rest + 1 else 0

/-- The lookahead `(?=-{2,}\w)` of `wordsep_re` evaluated at `c :: rest`:
at least two hyphens followed immediately by a word character. (Only the
maximal hyphen run can satisfy the greedy `-{2,}` because the character
after a shorter run is another hyphen, which is not `\w`.) -/
def em_dash_ahead (c : Char) (rest : List Char) : Bool :=
  let r := hyphen_run (c :: rest)
  decide (2 ≤ r) &&
    (match (c :: rest).drop r with
     | w :: _ => is_word_char w
     | [] => false)

/-- The lookbehind `(?:(?<=[^\d\W]{2}-)|(?<=[^\d\W]-[^\d\W]-))` of the
hyphenated-word alternative, evaluated just after consuming a `'-'`:
`beforeRev` lists the characters before the hyphen, most recent first. -/
def hyphen_behind (beforeRev : List Char) : Bool :=
  match beforeRev with
  | b1 :: b2 :: rest =>
      (is_letter_char b1 && is_letter_char b2) ||
        (is_letter_char b1 && b2 = '-' &&
          (match rest with | b3 :: _ => is_letter_char b3 | [] => false))
  | _ => false

/-- The lookahead `(?=[^\d\W]-?[^\d\W])` of the hyphenated-word
alternative, evaluated on the characters after the consumed `'-'`. -/
def hyphen_ahead (rest : List Char) : Bool :=
  match rest with
  | a1 :: a2 :: rest2 =>
      is_letter_char a1 &&
        (is_letter_char a2 ||
          (a2 = '-' && (match rest2 with | a3 :: _ => is_letter_char a3 | [] => false)))
  | _ => false

/-- The kind of chunk `wordsep_re` is matching: a whitespace run
(`ws+`), an em-dash run (`(?<=wp)-{2,}(?=\w)`), or a word
(`nws+?(...)`). -/
inductive ChunkMode where
  | ws
  | hyphens
  | word
deriving DecidableEq, Repr

/-- Which `wordsep_re` alternative matches at a chunk start: alternatives
are tried in order (whitespace run, em-dash run, word), and the em-dash
alternative needs the preceding character (`prev`) to be word
punctuation. -/
def start_mode (prev : Option Char) (c : Char) (rest : List Char) : ChunkMode :=
  if is_py_whitespace c then .ws
  else if (match prev with | some p => is_word_punct p | none => false) &&
      em_dash_ahead c rest then .hyphens
  else .word

/-- The splitting of `wordsep_re.split` (with the empty strings removed,
as `_split` does), executed as a left-to-right scan. The regex matches at
every position, so the chunks partition the text. A whitespace run or an
em-dash run extend while their character class continues; inside a word
(`nws+?`, non-greedy), the shortest extension wins, so before consuming
each further character the three terminator alternatives are tried in
regex order: the hyphenated-word break (consumes the hyphen, with its
lookbehind over `beforeRev` and lookahead over the remaining text), the
end-of-word lookahead `(?=ws|\Z)`, and the em-dash lookahead
`(?<=wp)(?=-{2,}\w)`. `beforeRev` is the reversed consumed text (for
lookbehinds), `curRev` the reversed chunk in progress (empty at a chunk
boundary). -/
def split_go (beforeRev curRev : List Char) (mode : ChunkMode) :
    List Char → List (List Char)
  | [] => if curRev.isEmpty then [] else [curRev.reverse]
  | c :: rest =>
      if curRev.isEmpty then
        split_go (c :: beforeRev) [c] (start_mode beforeRev.head? c rest) rest
      else
        match mode with
        | .ws =>
            if is_py_whitespace c then
              split_go (c :: beforeRev) (c :: curRev) .ws rest
            else
              curRev.reverse ::
                split_go (c :: beforeRev) [c] (start_mode beforeRev.head? c rest) rest
        | .hyphens =>
            if c = '-' then
              split_go (c :: beforeRev) (c :: curRev) .hyphens rest
            else
              curRev.reverse ::
                split_go (c :: beforeRev) [c] (start_mode beforeRev.head? c rest) rest
        | .word =>
            if c = '-' && hyphen_behind beforeRev && hyphen_ahead rest then
              ('-' :: curRev).reverse :: split_go ('-' :: beforeRev) [] .word rest
            else if is_py_whitespace c then
              curRev.reverse ::
                split_go (c :: beforeRev) [c] (start_mode beforeRev.head? c rest) rest
            else if is_word_punct (beforeRev.headD ' ') && em_dash_ahead c rest then
              curRev.reverse ::
                split_go (c :: beforeRev) [c] (start_mode beforeRev.head? c rest) rest
            else
              split_go (c :: beforeRev) (c :: curRev) .word rest

/-- `TextWrapper._split` on already-munged text: the non-empty chunks of
`wordsep_re.split`. -/
def wordsep_split (text : List Char) : List (List Char) :=
  split_go [] [] .word text

/-- `str.expandtabs(tabsize)`: replace each tab by spaces up to the next
multiple of `tabsize`, tracking the column; `\n` and `\r` reset the
column. -/
def expandtabs_go (tabsize : Nat) : Nat → List Char → List Char
  | _, [] => []
  | col, c :: rest =>
      if c = '\t' then
        let pad := tabsize - col % tabsize
        List.replicate pad ' ' ++ expandtabs_go tabsize (col + pad) rest
      else if c = '\n' || c = '\r' then c :: expandtabs_go tabsize 0 rest
      else c :: expandtabs_go tabsize (col + 1) rest

/-- `TextWrapper._munge_whitespace` with the defaults: `expandtabs(8)`,
then translate each of the six recognized whitespace characters to a
space. -/
def munge_whitespace (text : List Char) : List Char :=
  (expandtabs_go 8 0 text).map (fun c => if is_py_whitespace c then ' ' else c)

/-- `chunk.strip() == ''` for text over the recognized (ASCII) whitespace
characters: every character is whitespace. -/
def strip_is_empty (chunk : List Char) : Bool := chunk.all is_py_whitespace

/-- Python slice `s[:e]` (a negative `e` counts from the end). -/
def py_take (s : List Char) (e : Int) : List Char :=
  if e < 0 then s.take (s.length - e.natAbs) else s.take e.toNat

/-- Python slice `s[e:]` (a negative `e` counts from the end). -/
def py_drop (s : List Char) (e : Int) : List Char :=
  if e < 0 then s.drop (s.length - e.natAbs) else s.drop e.toNat

/-- Index of the last `'-'` among the first characters of the chunk
(`chunk.rfind('-', 0, e)`), or `none`. -/
def rfind_hyphen_go : List Char → Nat → Option Nat → Option Nat
  | [], _, acc => acc
  | c :: rest, i, acc =>
      rfind_hyphen_go rest (i + 1) (if c = '-' then some i else acc)

/-- `chunk.rfind('-', 0, e)` as an `Option`. -/
def rfind_hyphen (chunk : List Char) (e : Int) : Option Nat :=
  rfind_hyphen_go (py_take chunk e) 0 none

/-- `TextWrapper._handle_long_word` with `break_long_words=True` and
`break_on_hyphens=True`: given this line's width budget `widthI`
(`self.width - len(indent)`, which can be negative), the current line
length and the too-long head chunk, return the piece appended to the
current line (`chunk[:end]`) and the replacement head chunk
(`chunk[end:]`).

```python
if width < 1: space_left = 1
else: space_left = width - cur_len
end = space_left
if self.break_on_hyphens and len(chunk) > space_left:
    hyphen = chunk.rfind('-', 0, space_left)
    if hyphen > 0 and any(c != '-' for c in chunk[:hyphen]):
        end = hyphen + 1
cur_line.append(chunk[:end])
reversed_chunks[-1] = chunk[end:]
```
-/
def handle_long_word (widthI : Int) (curLen : Nat) (chunk : List Char) :
    List Char × List Char :=
  let space_left : Int := if widthI < 1 then 1 else widthI - curLen
  let e : Int :=
    if (chunk.length : Int) > space_left then
      match rfind_hyphen chunk space_left with
      | some h =>
          if 0 < h ∧ (chunk.take h).any (fun c => c ≠ '-') then ((h : Int) + 1)
          else space_left
      | none => space_left
    else space_left
  (py_take chunk e, py_drop chunk e)

/-- The greedy inner loop of `_wrap_chunks`: pop chunks onto the current
line while they fit in the width budget. Returns the popped chunks (in
order), the resulting `cur_len`, and the remaining chunks.

```python
while chunks:
    l = len(chunks[-1])
    if cur_len + l <= width:
        cur_line.append(chunks.pop())
        cur_len += l
    else:
        break
```
-/
def take_fits (widthI : Int) : Nat → List (List Char) →
    List (List Char) × Nat × List (List Char)
  | curLen, [] => ([], curLen, [])
  | curLen, c :: cs =>
      if (curLen : Int) + c.length ≤ widthI then
        let res := take_fits widthI (curLen + c.length) cs
        (c :: res.1, res.2.1, res.2.2)
      else ([], curLen, c :: cs)

/-- The line-filling part of one `_wrap_chunks` iteration: fill greedily
(`take_fits`), then break the head chunk if it is longer than the whole
budget (`_handle_long_word`). Returns the built `cur_line` (in order)
and the remaining chunks. -/
def fill_line (widthI : Int) (chunks1 : List (List Char)) :
    List (List Char) × List (List Char) :=
  let fits := take_fits widthI 0 chunks1
  match fits.2.2 with
  | c :: cs =>
      if (c.length : Int) > widthI then
        let hw := handle_long_word widthI fits.2.1 c
        (fits.1 ++ [hw.1], hw.2 :: cs)
      else (fits.1, c :: cs)
  | [] => (fits.1, [])

/-- One iteration of the `while chunks:` loop of `_wrap_chunks` (with
`max_lines=None`, so a built line is always appended): the line emitted
by this iteration, if any, and the remaining chunks. `hasLines` is
Python's `lines` being non-empty; the chunk list is kept in pop order
(head = `chunks[-1]`). Steps, in source order: choose the indent; drop a
leading all-whitespace chunk once lines exist; fill the line
(`fill_line`); drop a trailing all-whitespace chunk from the built line;
emit the line if non-empty. -/
def wrap_step (width : Nat) (sub : List Char) (chunks : List (List Char))
    (hasLines : Bool) : Option (List Char) × List (List Char) :=
  match chunks with
  | [] => (none, [])
  | top :: rest0 =>
      let indent : List Char := if hasLines then sub else []
      let widthI : Int := (width : Int) - indent.length
      let chunks1 := if strip_is_empty top && hasLines then rest0 else top :: rest0
      let fl := fill_line widthI chunks1
      let curB := fl.1
      let chunks3 := fl.2
      let curC :=
        match curB.getLast? with
        | some lc => if strip_is_empty lc then curB.dropLast else curB
        | none => curB
      if curC.isEmpty then (none, chunks3)
      else (some (indent ++ curC.flatten), chunks3)

/-- Fuel bound for `_wrap_chunks`: every iteration strictly decreases
this measure of the chunk list (each iteration deletes a chunk, moves at
least one chunk onto the line, or strictly shortens the head chunk). -/
def chunks_measure (chunks : List (List Char)) : Nat :=
  (chunks.map (fun c => c.length + 1)).sum

/-- The `while chunks:` loop of `_wrap_chunks`, driven by fuel; `none`
means the fuel ran out (`wrap_chunks_terminates` shows
`chunks_measure chunks + 1` always suffices when `1 ≤ width`). -/
def wrap_chunks_go (width : Nat) (sub : List Char) :
    Nat → List (List Char) → Bool → Option (List (List Char))
  | _, [], _ => some []
  | 0, _ :: _, _ => none
  | fuel + 1, top :: rest0, hasLines =>
      let st := wrap_step width sub (top :: rest0) hasLines
      match st.1 with
      | none => wrap_chunks_go width sub fuel st.2 hasLines
      | some line =>
          (wrap_chunks_go width sub fuel st.2 true).map (fun ls => line :: ls)

/-- `textwrap.wrap(text, width=width, subsequent_indent=sub)` with the
tool's defaults, as an `Option` (`none` would mean fuel exhaustion, which
`wrap_terminates` rules out for `1 ≤ width`). -/
def textwrap_wrap_opt (text : List Char) (width : Nat) (sub : List Char) :
    Option (List (List Char)) :=
  let chunks := wordsep_split (munge_whitespace text)
  wrap_chunks_go width sub (chunks_measure chunks + 1) chunks false

/-- `textwrap.wrap(text, width=width, subsequent_indent=sub)`. -/
def textwrap_wrap (text : List Char) (width : Nat) (sub : List Char) :
    List (List Char) :=
  (textwrap_wrap_opt text width sub).getD []

/-- Lines 74-75: the tool's call to `textwrap.wrap`: the subsequent
indent is four spaces when the line starts with a space character
(`line.startswith(' ')`), else empty. -/
def wrap_line (line_width : Nat) (line : List Char) : List (List Char) :=
  textwrap_wrap line line_width
    (if line.head? = some ' ' then "    ".data else [])

/-! ## `CodePDF.write_code_block` (lines 59-90)

```python
lines = code.splitlines()
for line in lines:
    if not line.strip():
        self.ln(line_height)
        continue
    if len(line) > self.line_width:
        wrapped_lines = textwrap.wrap(line, width=self.line_width,
                                     subsequent_indent='    ' if line.startswith(' ') else '')
        for i, wrapped_line in enumerate(wrapped_lines):
            ... self.cell(0, line_height, wrapped_line, ln=1, fill=True)
    else:
        self.cell(0, line_height, line, ln=1, fill=True)
```
The FPDF sink is modelled as the sequence of emitted rows: `self.ln(...)`
emits a blank row, `self.cell(0, h, txt, ln=1, fill=True)` emits a text
row with content `txt` (the two fill colors affect only shading, not
content, and are not modelled). -/

/-- A row emitted to the document by `write_code_block`. -/
inductive Row where
  | blank
  | text (content : List Char)
deriving DecidableEq, Repr

/-- A line-break character of `str.splitlines`. -/
def is_line_break (c : Char) : Bool :=
  c = '\n' || c = '\r' || c = '\x0b' || c = '\x0c' || c = Char.ofNat 28 ||
    c = Char.ofNat 29 || c = Char.ofNat 30 || c = Char.ofNat 133 ||
    c = Char.ofNat 8232 || c = Char.ofNat 8233

/-- `str.splitlines()`: split at line-break characters (treating `\r\n`
as one break), with no trailing empty line. `curRev` is the reversed line
in progress. -/
def splitlines_go (curRev : List Char) : List Char → List (List Char)
  | [] => if curRev.isEmpty then [] else [curRev.reverse]
  | '\r' :: '\n' :: rest => curRev.reverse :: splitlines_go [] rest
  | c :: rest =>
      if is_line_break c then curRev.reverse :: splitlines_go [] rest
      else splitlines_go (c :: curRev) rest

/-- `code.splitlines()` (line 63). -/
def splitlines (code : List Char) : List (List Char) := splitlines_go [] code

/-- Lines 65-90: the rows emitted for one line of the code block: a blank
row for a whitespace-only line, the wrapped pieces for an over-long line,
the line itself otherwise. -/
def emit_line (line_width : Nat) (line : List Char) : List Row :=
  if strip_is_empty line then [Row.blank]
  else if line.length > line_width then
    (wrap_line line_width line).map Row.text
  else [Row.text line]

/-- Lines 59-90: `write_code_block` as the sequence of rows emitted for
the whole code string. -/
def write_code_block (line_width : Nat) (code : List Char) : List Row :=
  (splitlines code).flatMap (emit_line line_width)

/-! ## Font bootstrap (lines 17-27 and 44-51)

```python
def ensure_font_exists():
    if not os.path.exists(FONT_PATH):
        print(f"Downloading font to {FONT_PATH}...")
        try:
            urlretrieve(FONT_URL, FONT_PATH)
            print("Font downloaded successfully!")
        except Exception as e:
            print(f"Error downloading font: {e}")
            print("You need to manually download DejaVuSansMono.ttf ...")
            sys.exit(1)
```
The filesystem check and the network fetch are external: they enter the
model as the Booleans `font_on_disk` and `download_ok`. The result records
the printed messages and `some code` when the process exits. -/

/-- Lines 17-27: outcome of `ensure_font_exists`. -/
def ensure_font_exists (font_on_disk : Bool) (download_ok : Bool) :
    List String × Option Nat :=
  if font_on_disk then ([], none)
  else if download_ok then
    (["Downloading font...", "Font downloaded successfully!"], none)
  else
    (["Downloading font...", "Error downloading font: <e>",
      "You need to manually download DejaVuSansMono.ttf and place it in the same directory."],
     some 1)

/-- The font the document ends up using. -/
inductive FontSetting where
  | dejavu (size : Nat)
  | courier (size : Nat)
deriving DecidableEq, Repr

/-- Lines 44-51: font registration inside `CodePDF.__init__`.

```python
try:
    self.add_font("DejaVu", "", FONT_PATH)
    self.set_font("DejaVu", size=8)
except Exception as e:
    print(f"Error adding font: {e}")
    print("Falling back to Courier")
    self.set_font("Courier", size=8)
```
`register_ok` stands for the external `add_font`/`set_font` calls
succeeding; the except branch is the `false` case. In both cases the
constructor returns normally (no exception escapes). -/
def codepdf_init_font (register_ok : Bool) : List String × FontSetting :=
  if register_ok then ([], .dejavu 8)
  else (["Error adding font: <e>", "Falling back to Courier"], .courier 8)

/-! ## Per-file processing loop (lines 163-177)

```python
for i, (full_path, relative_path) in enumerate(files_to_process):
    print(f"Processing {i+1}/{total_files}: {relative_path}")
    try:
        with open(full_path, "r", encoding="utf-8", errors="ignore") as f:
            code = f.read()
        if len(code) > 100000:
            code = code[:50000] + "\n\n... [File truncated due to size] ...\n\n"
        pdf.write_file(relative_path, code)
        processed_files += 1
    except Exception as e:
        print(f"Error processing {relative_path}: {e}")
```
Each entry's read outcome is an explicit `Except` input. The loop state
carries the `processed_files` and `skipped_files` counters and the error
log (the except branch only prints; it touches neither counter). -/

/-- State threaded through the processing loop of
`convert_directory_to_pdf`. -/
structure LoopState where
  processed : Nat
  skipped : Nat
  logs : List String
deriving DecidableEq, Repr

/-- One iteration of the per-file loop (lines 164-177): the entry is the
relative path paired with the outcome of reading the file. -/
def process_one (st : LoopState) (entry : String × Except String (List Char)) :
    LoopState :=
  match entry.2 with
  | .ok _code => { st with processed := st.processed + 1 }
  | .error e =>
      { st with logs := st.logs ++ ["Error processing " ++ entry.1 ++ ": " ++ e] }

/-- The whole per-file loop (lines 163-177). -/
def process_files (entries : List (String × Except String (List Char)))
    (st : LoopState) : LoopState :=
  entries.foldl process_one st

/-! ## Final save and driver exit code (lines 186-193, 234-247)

```python
try:
    pdf.output(output_path)
    print(f"PDF saved to {output_path}")
except Exception as e:
    print(f"Error saving PDF: {e}")
    print("Try changing the output filename or directory.")
return processed_files
```
`pdf.output` is external; its outcome is the input `save : Except String
Unit`. The except branch swallows the failure, so in either case the
function falls through to `return processed_files`: the result component is
`Except String Nat` so that a propagating exception could be represented,
and the save branch never produces `.error`. -/

/-- Lines 186-193: messages printed by the save step together with the
outcome of `convert_directory_to_pdf` as seen by its caller. -/
def convert_save_and_return (save : Except String Unit) (processed : Nat)
    (output_path : String) : List String × Except String Nat :=
  match save with
  | .ok _ => (["PDF saved to " ++ output_path], .ok processed)
  | .error e =>
      (["Error saving PDF: " ++ e,
        "Try changing the output filename or directory."], .ok processed)

/-- Lines 234-247: the driver wraps the call to
`convert_directory_to_pdf` in `try/except`; an escaping exception prints
the error and exits with code 1, otherwise the success message is printed
and the process ends with exit code 0.

```python
try:
    processed = convert_directory_to_pdf(...)
    print(f"Successfully processed {processed} files")
except Exception as e:
    print(f"Error: {e}")
    sys.exit(1)
```
-/
def main_exit (convert_result : Except String Nat) : List String × Nat :=
  match convert_result with
  | .ok p => (["Successfully processed " ++ toString p ++ " files"], 0)
  | .error e => (["Error: " ++ e], 1)

/-- The end-to-end fate of a run whose assembly succeeded with `processed`
files and whose final `pdf.output` call had outcome `save`: the exit code
the process ends with. -/
def run_exit_code (save : Except String Unit) (processed : Nat) : Nat :=
  (main_exit (convert_save_and_return save processed "code_collection.pdf").2).2

end PdfZipper

namespace PdfZipper

/-! ## Theorems: C1, C2, C3, C9, C10 -/

/-- **C1, counterexample.** The claim says a failing `pdf.output` surfaces
a fatal error and the process exits with code 1. On the code, the
`except` branch of lines 186-193 swallows the failure and
`convert_directory_to_pdf` returns normally, so the driver's `try` sees no
exception and the process exits with code 0. -/
theorem c1_counterexample :
    run_exit_code (Except.error "Permission denied") 5 = 0 ∧
      (convert_save_and_return (Except.error "Permission denied") 5
        "code_collection.pdf").2 = Except.ok 5 := by
  constructor <;> rfl

/-- **C1, amended.** If writing the final document fails, the failure is
not fatal: the error and a hint are printed, `convert_directory_to_pdf`
still returns the processed count normally (the exception never reaches
the driver), and the process exits with code 0. The failure is, however,
not silent: the two error messages are printed. -/
theorem c1_save_failure_is_swallowed (e : String) (p : Nat) (out : String) :
    convert_save_and_return (Except.error e) p out =
      (["Error saving PDF: " ++ e,
        "Try changing the output filename or directory."], Except.ok p) ∧
      run_exit_code (Except.error e) p = 0 := by
  constructor <;> rfl

/-- Witness for `c1_save_failure_is_swallowed` at a concrete input. -/
theorem c1_save_failure_is_swallowed_witness :
    convert_save_and_return (Except.error "disk full") 3 "out.pdf" =
      (["Error saving PDF: " ++ "disk full",
        "Try changing the output filename or directory."], Except.ok 3) ∧
      run_exit_code (Except.error "disk full") 3 = 0 :=
  c1_save_failure_is_swallowed "disk full" 3 "out.pdf"

/-- **C2, counterexample.** The claim says a per-file read failure
increments the skipped count by one. On the code, the `except` branch of
lines 176-177 only prints: a run over a single failing entry leaves
`skipped` at 0 (the claim would require 1), though the error is logged. -/
theorem c2_counterexample :
    process_files [("a.py", Except.error "boom")]
        { processed := 0, skipped := 0, logs := [] } =
      { processed := 0, skipped := 0,
        logs := ["Error processing " ++ "a.py" ++ ": " ++ "boom"] } := by
  rfl

/-- **C2, amended.** On a per-file read failure the error is logged and
processing continues with the next entry — the loop over
`pre ++ (f, error e) :: post` runs `post` exactly as it would have from the
state after `pre` plus the one log line, no abort — but the skipped count
is never changed by the processing loop (it only counts files excluded
during collection), and the processed count grows only on successes. -/
theorem c2_failure_logged_and_loop_continues
    (pre post : List (String × Except String (List Char)))
    (f e : String) (st : LoopState) :
    process_files (pre ++ (f, Except.error e) :: post) st =
      process_files post
        (let st' := process_files pre st
         { st' with logs := st'.logs ++ ["Error processing " ++ f ++ ": " ++ e] }) ∧
      (process_files (pre ++ (f, Except.error e) :: post) st).skipped = st.skipped := by
  have hskip : ∀ (l : List (String × Except String (List Char))) (s : LoopState),
      (process_files l s).skipped = s.skipped := by
    intro l
    induction l with
    | nil => intro s; rfl
    | cons hd tl ih =>
        intro s
        simp only [process_files, List.foldl_cons] at *
        rw [ih]
        cases h : hd.2 <;> simp [process_one, h]
  refine ⟨?_, hskip _ _⟩
  simp only [process_files, List.foldl_append, List.foldl_cons]
  rfl

/-- Witness for `c2_failure_logged_and_loop_continues`: one success, one
failure, one further success; the failure is logged, the later entry is
still processed, and skipped stays 0. -/
theorem c2_failure_logged_and_loop_continues_witness :
    process_files
        ([("a.py", Except.ok ['x'])] ++ ("b.py", Except.error "io") ::
          [("c.py", Except.ok ['y'])]) { processed := 0, skipped := 0, logs := [] } =
      process_files [("c.py", Except.ok ['y'])]
        (let st' := process_files [("a.py", Except.ok ['x'])]
          { processed := 0, skipped := 0, logs := [] }
         { st' with logs := st'.logs ++ ["Error processing " ++ "b.py" ++ ": " ++ "io"] }) ∧
      (process_files
        ([("a.py", Except.ok ['x'])] ++ ("b.py", Except.error "io") ::
          [("c.py", Except.ok ['y'])])
        { processed := 0, skipped := 0, logs := [] }).skipped = 0 :=
  c2_failure_logged_and_loop_continues [("a.py", Except.ok ['x'])]
    [("c.py", Except.ok ['y'])] "b.py" "io"
    { processed := 0, skipped := 0, logs := [] }

/-- **C3.** A file whose content exceeds 100000 characters is replaced by
exactly its first 50000 characters followed by the literal truncation
marker — so no character past position 50000 survives — and a file of at
most 100000 characters is passed through in full. -/
theorem c3_truncation (code : List Char) :
    (code.length > 100000 →
      truncate_code code = code.take 50000 ++ truncation_marker) ∧
      (code.length ≤ 100000 → truncate_code code = code) := by
  constructor
  · intro h
    simp [truncate_code, h]
  · intro h
    simp [truncate_code]
    omega

/-- Witness for `c3_truncation`: a 150000-character file keeps exactly its
first 50000 characters plus the marker; a 100000-character file is kept
whole. -/
theorem c3_truncation_witness :
    (truncate_code (List.replicate 150000 'a') =
      (List.replicate 150000 'a').take 50000 ++ truncation_marker) ∧
      truncate_code (List.replicate 100000 'b') = List.replicate 100000 'b' :=
  ⟨(c3_truncation (List.replicate 150000 'a')).1
      (by rw [List.length_replicate]; norm_num),
   (c3_truncation (List.replicate 100000 'b')).2
      (by rw [List.length_replicate])⟩

/-- **C9.** `convert_directory_to_pdf` mutates the caller-supplied exclude
list: when the script's own path is absent from it, the path is appended
to that same list, so after the call the caller's list has grown by one
element (it is not left unmodified). -/
theorem c9_exclude_list_mutated (script_path : List Char)
    (exclude : List (List Char)) (h : script_path ∉ exclude) :
    exclude_after_append script_path exclude = exclude ++ [script_path] ∧
      exclude_after_append script_path exclude ≠ exclude := by
  refine ⟨by simp [exclude_after_append, h], ?_⟩
  simp only [exclude_after_append, if_neg h]
  intro hcontra
  have := congrArg List.length hcontra
  simp at this

/-- Witness for `c9_exclude_list_mutated` at a concrete input. -/
theorem c9_exclude_list_mutated_witness :
    exclude_after_append "/tool/pdf-zipper.py".data ["/a/b.py".data] =
      ["/a/b.py".data] ++ ["/tool/pdf-zipper.py".data] ∧
      exclude_after_append "/tool/pdf-zipper.py".data ["/a/b.py".data] ≠
        ["/a/b.py".data] :=
  c9_exclude_list_mutated "/tool/pdf-zipper.py".data ["/a/b.py".data] (by decide)

/-- The inner loop of lines 141-158 is append-only on `files_to_process`:
folding it from any accumulator appends exactly the `file_entry`-filtered
image of the visited file list. -/
theorem collect_file_fold_fst (d s : PyStr) (e x : List PyStr) (root : PyStr) :
    ∀ (files : List PyStr) (acc : List (PyStr × PyStr) × Nat),
      (files.foldl (collect_file_step d s e x root) acc).1 =
        acc.1 ++ files.filterMap (file_entry d s e x root) := by
  intro files
  induction files with
  | nil => intro acc; simp
  | cons f fs ih =>
      intro acc
      simp only [List.foldl_cons, List.filterMap_cons]
      rw [ih]
      simp only [collect_file_step, file_entry]
      by_cases h1 : matches_extension e f
      · by_cases h2 : path_join root f ∈ x
        · simp [h1, h2]
        · by_cases h3 : path_join root f = s
          · simp [h1, h2, h3]
          · simp [h1, h2, h3]
      · simp [h1]

/-- The outer loop of lines 139-158 concatenates the per-directory
contributions in walk order. -/
theorem collect_walk_fold_fst (d s : PyStr) (e x : List PyStr) :
    ∀ (walk : List (PyStr × List PyStr)) (acc : List (PyStr × PyStr) × Nat),
      (walk.foldl (collect_walk_step d s e x) acc).1 =
        acc.1 ++ walk.flatMap (fun rf => collect_dir d s e x rf.1 rf.2) := by
  intro walk
  induction walk with
  | nil => intro acc; simp
  | cons rf rest ih =>
      intro acc
      simp only [List.foldl_cons, List.flatMap_cons]
      rw [ih]
      simp only [collect_walk_step, collect_dir]
      rw [collect_file_fold_fst]
      simp [List.append_assoc]

/-- `files_to_process` is the walk-order concatenation of the
per-directory contributions. -/
theorem collect_files_fst (d s : PyStr) (e x : List PyStr)
    (walk : List (PyStr × List PyStr)) :
    (collect_files d s e x walk).1 =
      walk.flatMap (fun rf => collect_dir d s e x rf.1 rf.2) := by
  unfold collect_files
  rw [collect_walk_fold_fst]
  rfl

/-- **C4, counterexample.** The claim says directories are visited in
name-sorted order and the returned list is path-sorted. On the code, only
`files` is sorted (line 141); the walk enumeration is passed through, and
even a name-sorted enumeration emits a parent directory's files before its
subdirectories' files: walking `/d` containing `z.py` and subdirectory
`a/g.py` returns `/d/z.py` before `/d/a/g.py`, which is not path-sorted
(`"/d/z.py" > "/d/a/g.py"` lexicographically). -/
theorem c4_counterexample :
    (collect_files "/d".data "/tool/pdf-zipper.py".data get_file_extensions
        ["/tool/pdf-zipper.py".data]
        [("/d".data, ["z.py".data]), ("/d/a".data, ["g.py".data])]).1 =
      [("/d/z.py".data, "z.py".data), ("/d/a/g.py".data, "a/g.py".data)] ∧
      ¬ (("/d/z.py".data : List Char) ≤ "/d/a/g.py".data) := by
  constructor
  · decide
  · decide

/-- **C4, amended.** Within each directory the files are visited in
name-sorted order: the collected list is, in walk order, the
concatenation of per-directory contributions, and each contribution
filters a sorted permutation of that directory's file list. Directory
visitation order is the `os.walk` enumeration order, which the code never
sorts, so the full list is not path-sorted in general. Collection is a
pure function of the enumeration, so two runs over an identical
enumeration (an unchanged tree with a stable OS order) yield identical
output. -/
theorem c4_files_sorted_within_directory (d s : PyStr) (e x : List PyStr)
    (walk : List (PyStr × List PyStr)) :
    (collect_files d s e x walk).1 =
      walk.flatMap (fun rf => collect_dir d s e x rf.1 rf.2) ∧
      ∀ files : List PyStr,
        (List.insertionSort (α := PyStr) (· ≤ ·) files).Sorted (· ≤ ·) ∧
        (List.insertionSort (α := PyStr) (· ≤ ·) files).Perm files ∧
        ∀ root, collect_dir d s e x root files =
          (List.insertionSort (· ≤ ·) files).filterMap
            (file_entry d s e x root) :=
  ⟨collect_files_fst d s e x walk, fun _files =>
    ⟨List.sorted_insertionSort _ _, List.perm_insertionSort _ _, fun _root => rfl⟩⟩

/-- **C5.** Exclusion correctness and self-exclusion: after the setup of
lines 121-129 the script's own resolved path is a member of the exclusion
list (whatever the caller passed, including `None`), and no path in the
exclusion list ever appears as the full path of a collected entry — even
when its name matches an allowed extension, since the membership test of
line 146 runs after the extension test of line 142. In particular the
tool's own source is never collected. -/
theorem c5_exclusion_and_self_exclusion (d s : PyStr) (e : List PyStr)
    (exclude0 : Option (List PyStr)) (walk : List (PyStr × List PyStr)) :
    s ∈ exclude_after_append s (init_exclude exclude0) ∧
      ∀ p ∈ exclude_after_append s (init_exclude exclude0),
        ∀ en ∈ (collect_files d s e
            (exclude_after_append s (init_exclude exclude0)) walk).1,
          en.1 ≠ p := by
  constructor
  · unfold exclude_after_append
    split
    · assumption
    · simp
  · intro p hp en hen
    rw [collect_files_fst] at hen
    rw [List.mem_flatMap] at hen
    obtain ⟨rf, _hrf, hen⟩ := hen
    unfold collect_dir at hen
    rw [List.mem_filterMap] at hen
    obtain ⟨file, _hfile, hfe⟩ := hen
    by_cases h1 : matches_extension e file
    · by_cases h2 : path_join rf.1 file ∈
          exclude_after_append s (init_exclude exclude0)
      · simp [file_entry, h1, h2] at hfe
      · by_cases h3 : path_join rf.1 file = s
        · simp [file_entry, h1, h2, h3] at hfe
        · simp [file_entry, h1, h2, h3] at hfe
          subst hfe
          intro heq
          apply h2
          rw [← heq] at hp
          exact hp
    · simp [file_entry, h1] at hfe

/-- Witness for `c5_exclusion_and_self_exclusion`: a concrete run in which
the excluded file `/d/a.py` and the script itself both match the `.py`
extension, instantiated at the member `p = "/d/a.py"` and the collected
entry `("/d/b.py", "b.py")`. -/
theorem c5_exclusion_and_self_exclusion_witness :
    "/tool/pdf-zipper.py".data ∈
        exclude_after_append "/tool/pdf-zipper.py".data
          (init_exclude (some ["/d/a.py".data])) ∧
      ("/d/b.py".data, "b.py".data).1 ≠ "/d/a.py".data := by
  have h := c5_exclusion_and_self_exclusion "/d".data "/tool/pdf-zipper.py".data
    get_file_extensions (some ["/d/a.py".data])
    [("/d".data, ["a.py".data, "b.py".data])]
  refine ⟨h.1, h.2 "/d/a.py".data (by decide) ("/d/b.py".data, "b.py".data) ?_⟩
  decide

/-! ### Helper lemmas about the `_wrap_chunks` machinery -/

/-- `take_fits` splits its input: popped chunks followed by the rest. -/
theorem take_fits_append (W : Int) :
    ∀ (l : List (List Char)) (n : Nat),
      (take_fits W n l).1 ++ (take_fits W n l).2.2 = l := by
  intro l
  induction l with
  | nil => intro n; rfl
  | cons c cs ih =>
      intro n
      unfold take_fits
      by_cases h : ((n : Int) + c.length ≤ W)
      · simp only [h, if_true, List.cons_append]
        rw [ih]
      · simp [h]

/-- `cur_len` after `take_fits` is the starting length plus the popped
chunks' total length. -/
theorem take_fits_len (W : Int) :
    ∀ (l : List (List Char)) (n : Nat),
      (take_fits W n l).2.1 = n + (((take_fits W n l).1).map List.length).sum := by
  intro l
  induction l with
  | nil => intro n; simp [take_fits]
  | cons c cs ih =>
      intro n
      unfold take_fits
      by_cases h : ((n : Int) + c.length ≤ W)
      · simp only [h, if_true, List.map_cons, List.sum_cons]
        rw [ih]
        omega
      · simp [h]

/-- `take_fits` never exceeds the budget when it starts within it. -/
theorem take_fits_le (W : Int) :
    ∀ (l : List (List Char)) (n : Nat), (n : Int) ≤ W →
      ((take_fits W n l).2.1 : Int) ≤ W := by
  intro l
  induction l with
  | nil => intro n hn; simpa [take_fits] using hn
  | cons c cs ih =>
      intro n hn
      unfold take_fits
      by_cases h : ((n : Int) + c.length ≤ W)
      · simp only [h, if_true]
        exact ih _ (by exact_mod_cast h)
      · simpa [h] using hn

/-- If `take_fits` pops nothing, it leaves everything in place. -/
theorem take_fits_eq_nil (W : Int) (l : List (List Char)) (n : Nat)
    (h : (take_fits W n l).1 = []) : take_fits W n l = ([], n, l) := by
  cases l with
  | nil => rfl
  | cons c cs =>
      unfold take_fits at h ⊢
      by_cases hc : ((n : Int) + c.length ≤ W)
      · simp [hc] at h
      · simp [hc]

/-- If `take_fits` pops nothing from a non-empty list, the head did not
fit. -/
theorem take_fits_head_big (W : Int) (c : List Char) (cs : List (List Char))
    (n : Nat) (h : (take_fits W n (c :: cs)).1 = []) :
    ¬ ((n : Int) + c.length ≤ W) := by
  intro hc
  unfold take_fits at h
  simp [hc] at h

/-- Python's `s[:e]` and `s[e:]` recombine to `s`. -/
theorem py_take_append_py_drop (s : List Char) (e : Int) :
    py_take s e ++ py_drop s e = s := by
  unfold py_take py_drop
  by_cases h : e < 0 <;> simp [h, List.take_append_drop]

/-- Length bound for `py_take` with a non-negative index. -/
theorem py_take_length_le (s : List Char) (e : Int) (he : 0 ≤ e) :
    ((py_take s e).length : Int) ≤ e := by
  unfold py_take
  rw [if_neg (by omega)]
  have := List.length_take (e.toNat) s
  have h2 : (s.take e.toNat).length ≤ e.toNat := by simp [List.length_take]
  omega

/-- `rfind_hyphen_go` returns an index below the scanned length. -/
theorem rfind_hyphen_go_lt :
    ∀ (l : List Char) (i : Nat) (acc : Option Nat),
      (∀ j, acc = some j → j < i) →
      ∀ j, rfind_hyphen_go l i acc = some j → j < i + l.length := by
  intro l
  induction l with
  | nil =>
      intro i acc hacc j hj
      simp only [rfind_hyphen_go] at hj
      simpa using hacc j hj
  | cons c cs ih =>
      intro i acc hacc j hj
      simp only [rfind_hyphen_go] at hj
      have := ih (i + 1) (if c = '-' then some i else acc)
        (by
          intro k hk
          by_cases hc : c = '-'
          · simp [hc] at hk; omega
          · simp [hc] at hk; exact Nat.lt_succ_of_lt (hacc k hk))
        j hj
      simp only [List.length_cons]
      omega

/-- `rfind_hyphen` returns an index below the slice length. -/
theorem rfind_hyphen_lt (c : List Char) (e : Int) (j : Nat)
    (h : rfind_hyphen c e = some j) : j < (py_take c e).length := by
  have := rfind_hyphen_go_lt (py_take c e) 0 none (by intro k hk; cases hk) j h
  omega

/-- `_handle_long_word` splits the head chunk: the piece moved onto the
line followed by the replacement chunk recombine to the original. -/
theorem handle_long_word_append (W : Int) (n : Nat) (c : List Char) :
    (handle_long_word W n c).1 ++ (handle_long_word W n c).2 = c := by
  unfold handle_long_word
  exact py_take_append_py_drop c _

/-- With an empty current line, `_handle_long_word` always takes at least
one character off a non-empty chunk. -/
theorem handle_long_word_fst_ne_nil (W : Int) (c : List Char) (hc : c ≠ []) :
    (handle_long_word W 0 c).1 ≠ [] := by
  unfold handle_long_word
  simp only [Nat.cast_zero, sub_zero]
  have hsl : (1 : Int) ≤ (if W < 1 then (1 : Int) else W) := by
    by_cases h : W < 1 <;> simp [h]; omega
  set sl : Int := if W < 1 then (1 : Int) else W with hsl_def
  have he1 : ∀ e : Int, 1 ≤ e → py_take c e ≠ [] := by
    intro e he
    unfold py_take
    rw [if_neg (by omega)]
    simp only [ne_eq, List.take_eq_nil_iff]
    push_neg
    constructor
    · omega
    · exact hc
  by_cases hbig : ((c.length : Int) > sl)
  · simp only [hbig, if_true]
    cases hrf : rfind_hyphen c sl with
    | none => simp only [hrf]; exact he1 _ hsl
    | some h =>
        simp only [hrf]
        by_cases hcond : 0 < h ∧ (c.take h).any (fun x => x ≠ '-')
        · simp only [hcond, if_true]
          exact he1 _ (by omega)
        · simp only [hcond, if_false]
          exact he1 _ hsl
  · simp only [hbig, if_false]
    exact he1 _ hsl

/-- The piece `_handle_long_word` moves onto the line is bounded by
`space_left`. -/
theorem handle_long_word_fst_le (W : Int) (n : Nat) (c : List Char)
    (h0 : 0 ≤ (if W < 1 then (1 : Int) else W - n)) :
    ((handle_long_word W n c).1.length : Int) ≤
      (if W < 1 then (1 : Int) else W - n) := by
  unfold handle_long_word
  set sl : Int := if W < 1 then (1 : Int) else W - n with hsl_def
  by_cases hbig : ((c.length : Int) > sl)
  · simp only [hbig, if_true]
    cases hrf : rfind_hyphen c sl with
    | none => simp only [hrf]; exact py_take_length_le c _ h0
    | some h =>
        simp only [hrf]
        by_cases hcond : 0 < h ∧ (c.take h).any (fun x => x ≠ '-')
        · simp only [hcond, if_true]
          have hlt := rfind_hyphen_lt c sl h hrf
          have hle := py_take_length_le c sl h0
          have : ((h : Int) + 1) ≤ sl := by omega
          calc ((py_take c ((h : Int) + 1)).length : Int) ≤ (h : Int) + 1 :=
                py_take_length_le c _ (by omega)
            _ ≤ sl := this
        · simp only [hcond, if_false]
          exact py_take_length_le c _ h0
  · simp only [hbig, if_false]
    exact py_take_length_le c _ h0

/-- Measure arithmetic. -/
theorem chunks_measure_append (a b : List (List Char)) :
    chunks_measure (a ++ b) = chunks_measure a + chunks_measure b := by
  simp [chunks_measure]

/-- Measure of a cons. -/
theorem chunks_measure_cons (c : List Char) (cs : List (List Char)) :
    chunks_measure (c :: cs) = c.length + 1 + chunks_measure cs := by
  simp [chunks_measure]

/-- After filling a line, the remaining chunks weigh no more than what
`take_fits` left over. -/
theorem fill_line_snd_le_rest (W : Int) (l : List (List Char)) :
    chunks_measure (fill_line W l).2 ≤
      chunks_measure ((take_fits W 0 l).2.2) := by
  unfold fill_line
  cases h2 : (take_fits W 0 l).2.2 with
  | nil => simp [h2]
  | cons c cs =>
      simp only [h2]
      by_cases hbig : ((c.length : Int) > W)
      · simp only [hbig, if_true]
        have happ := handle_long_word_append W ((take_fits W 0 l).2.1) c
        have hlen : (handle_long_word W ((take_fits W 0 l).2.1) c).1.length +
            (handle_long_word W ((take_fits W 0 l).2.1) c).2.length = c.length := by
          have := congrArg List.length happ
          simpa using this
        rw [chunks_measure_cons, chunks_measure_cons]
        omega
      · simp [hbig]

/-- After filling a line, the remaining chunks weigh no more than the
input. -/
theorem fill_line_snd_le (W : Int) (l : List (List Char)) :
    chunks_measure (fill_line W l).2 ≤ chunks_measure l := by
  have h := fill_line_snd_le_rest W l
  have happ := take_fits_append W l 0
  have : chunks_measure l =
      chunks_measure ((take_fits W 0 l).1) +
        chunks_measure ((take_fits W 0 l).2.2) := by
    rw [← chunks_measure_append, happ]
  omega

/-- Filling a line from a non-empty chunk list strictly decreases the
measure, provided the head chunk is non-empty or the width budget is
positive. -/
theorem fill_line_snd_lt (W : Int) (top : List Char) (rest : List (List Char))
    (h : top ≠ [] ∨ 1 ≤ W) :
    chunks_measure (fill_line W (top :: rest)).2 <
      chunks_measure (top :: rest) := by
  cases hA : (take_fits W 0 (top :: rest)).1 with
  | cons a as =>
      have happ := take_fits_append W (top :: rest) 0
      have hmeq : chunks_measure (top :: rest) =
          chunks_measure ((take_fits W 0 (top :: rest)).1) +
            chunks_measure ((take_fits W 0 (top :: rest)).2.2) := by
        rw [← chunks_measure_append, happ]
      have hrest := fill_line_snd_le_rest W (top :: rest)
      rw [hA] at hmeq
      have hpos : 1 ≤ chunks_measure (a :: as) := by
        rw [chunks_measure_cons]; omega
      omega
  | nil =>
      have heq := take_fits_eq_nil W (top :: rest) 0 hA
      have hbig0 := take_fits_head_big W top rest 0 hA
      have hbig : ((top.length : Int) > W) := by
        push_neg at hbig0
        omega
      have htop : top ≠ [] := by
        cases h with
        | inl h => exact h
        | inr h =>
            intro he
            subst he
            simp at hbig
            omega
      unfold fill_line
      rw [heq]
      simp only [hbig, if_true]
      have happ := handle_long_word_append W 0 top
      have hne := handle_long_word_fst_ne_nil W top htop
      have hlen : (handle_long_word W 0 top).1.length +
          (handle_long_word W 0 top).2.length = top.length := by
        have := congrArg List.length happ
        simpa using this
      have hpos : 1 ≤ (handle_long_word W 0 top).1.length := by
        cases hp : (handle_long_word W 0 top).1 with
        | nil => exact absurd hp hne
        | cons x xs => simp [hp]
      rw [chunks_measure_cons, chunks_measure_cons]
      omega

/-- The remaining chunks after one `_wrap_chunks` iteration, whether or
not a line was emitted. -/
theorem wrap_step_snd (w : Nat) (sub : List Char) (top : List Char)
    (rest0 : List (List Char)) (hl : Bool) :
    (wrap_step w sub (top :: rest0) hl).2 =
      (fill_line ((w : Int) - (if hl then sub else []).length)
        (if strip_is_empty top && hl then rest0 else top :: rest0)).2 := by
  unfold wrap_step
  dsimp only
  rw [apply_ite Prod.snd]
  dsimp only
  exact ite_self _

/-- Every `_wrap_chunks` iteration strictly decreases the chunk measure
(for a positive width). -/
theorem wrap_step_measure_lt (w : Nat) (hw : 1 ≤ w) (sub : List Char)
    (top : List Char) (rest0 : List (List Char)) (hl : Bool) :
    chunks_measure (wrap_step w sub (top :: rest0) hl).2 <
      chunks_measure (top :: rest0) := by
  rw [wrap_step_snd]
  by_cases hdel : (strip_is_empty top && hl) = true
  · simp only [hdel, if_true]
    have h1 := fill_line_snd_le ((w : Int) - (if hl then sub else []).length) rest0
    have h2 := chunks_measure_cons top rest0
    omega
  · simp only [hdel, if_false]
    apply fill_line_snd_lt
    by_cases hhl : hl = true
    · left
      intro he
      subst he
      rw [hhl] at hdel
      simp [strip_is_empty] at hdel
    · right
      rw [if_neg hhl]
      simp
      omega

/-- `take_fits` with a negative budget pops nothing. -/
theorem take_fits_neg (W : Int) (hW : W < 0) (l : List (List Char)) (n : Nat) :
    take_fits W n l = ([], n, l) := by
  cases l with
  | nil => rfl
  | cons c cs =>
      unfold take_fits
      rw [if_neg (by omega)]

/-- The fuel `chunks_measure chunks + 1` always suffices: the
`_wrap_chunks` loop terminates (for a positive width). -/
theorem wrap_chunks_go_isSome (w : Nat) (hw : 1 ≤ w) (sub : List Char) :
    ∀ (fuel : Nat) (chunks : List (List Char)) (hl : Bool),
      chunks_measure chunks < fuel →
      (wrap_chunks_go w sub fuel chunks hl).isSome := by
  intro fuel
  induction fuel with
  | zero => intro chunks hl h; exact absurd h (Nat.not_lt_zero _)
  | succ f ih =>
      intro chunks hl h
      cases chunks with
      | nil => simp [wrap_chunks_go]
      | cons top rest0 =>
          unfold wrap_chunks_go
          dsimp only
          have hdec := wrap_step_measure_lt w hw sub top rest0 hl
          cases hst : (wrap_step w sub (top :: rest0) hl).1 with
          | none =>
              simp only [hst]
              exact ih ((wrap_step w sub (top :: rest0) hl).2) hl (by omega)
          | some line =>
              simp only [hst]
              have hinner := ih ((wrap_step w sub (top :: rest0) hl).2) true
                (by omega)
              cases hg : wrap_chunks_go w sub f
                  ((wrap_step w sub (top :: rest0) hl).2) true with
              | none => rw [hg] at hinner; simp at hinner
              | some ls => simp [hg]

/-- `textwrap.wrap` never runs out of fuel: the loop terminates for every
input at every positive width. -/
theorem textwrap_wrap_opt_isSome (text : List Char) (w : Nat)
    (sub : List Char) (hw : 1 ≤ w) : (textwrap_wrap_opt text w sub).isSome := by
  unfold textwrap_wrap_opt
  exact wrap_chunks_go_isSome w hw sub _ _ false (Nat.lt_succ_self _)

/-- Dropping a trailing whitespace chunk from the built line only
shortens it. -/
theorem cur_drop_sum_le (curB : List (List Char)) :
    (((match curB.getLast? with
        | some lc => if strip_is_empty lc then curB.dropLast else curB
        | none => curB).map List.length).sum) ≤ ((curB.map List.length).sum) := by
  cases hg : curB.getLast? with
  | none => simp
  | some lc =>
      by_cases hs : strip_is_empty lc
      · simp only [hg, hs, if_true]
        have hne : curB ≠ [] := by intro he; subst he; simp at hg
        have hdl := List.dropLast_append_getLast hne
        have h2 : ((curB.map List.length).sum) =
            ((curB.dropLast.map List.length).sum) + (curB.getLast hne).length := by
          conv_lhs => rw [← hdl]
          simp
        omega
      · simp [hg, hs]

/-- Total length of the chunks `fill_line` puts on the line: at most the
width budget when it is positive, at most one character otherwise. -/
theorem fill_line_fst_sum (W : Int) (l : List (List Char)) :
    (1 ≤ W → ((((fill_line W l).1).map List.length).sum : Int) ≤ W) ∧
      (W ≤ 0 → (((fill_line W l).1).map List.length).sum ≤ 1) := by
  have hlen := take_fits_len W l 0
  constructor
  · intro hW
    have hle := take_fits_le W l 0 (by omega)
    unfold fill_line
    cases h2 : (take_fits W 0 l).2.2 with
    | nil =>
        simp only [h2]
        omega
    | cons c cs =>
        simp only [h2]
        by_cases hbig : ((c.length : Int) > W)
        · simp only [hbig, if_true]
          have hpiece := handle_long_word_fst_le W ((take_fits W 0 l).2.1) c
            (by rw [if_neg (by omega)]; omega)
          rw [if_neg (by omega : ¬ W < 1)] at hpiece
          simp only [List.map_append, List.sum_append, List.map_cons,
            List.map_nil, List.sum_cons, List.sum_nil]
          omega
        · simp only [hbig, if_false]
          omega
  · intro hW
    have hzero : (take_fits W 0 l).2.1 = 0 ∧
        (((take_fits W 0 l).1).map List.length).sum = 0 := by
      by_cases hneg : W < 0
      · rw [take_fits_neg W hneg l 0]
        simp
      · have h0 : W = 0 := by omega
        have hle := take_fits_le W l 0 (by omega)
        constructor
        · omega
        · omega
    unfold fill_line
    cases h2 : (take_fits W 0 l).2.2 with
    | nil =>
        simp only [h2]
        omega
    | cons c cs =>
        simp only [h2]
        by_cases hbig : ((c.length : Int) > W)
        · simp only [hbig, if_true]
          have hpiece := handle_long_word_fst_le W ((take_fits W 0 l).2.1) c
            (by rw [if_pos (by omega : W < 1)]; omega)
          rw [if_pos (by omega : W < 1)] at hpiece
          simp only [List.map_append, List.sum_append, List.map_cons,
            List.map_nil, List.sum_cons, List.sum_nil]
          omega
        · simp only [hbig, if_false]
          omega

/-- Every line emitted by one `_wrap_chunks` iteration is bounded by
`max width (len(subsequent_indent) + 1)`. -/
theorem wrap_step_line_length (w : Nat) (hw : 1 ≤ w) (sub : List Char)
    (chunks : List (List Char)) (hl : Bool) (line : List Char)
    (h : (wrap_step w sub chunks hl).1 = some line) :
    line.length ≤ max w (sub.length + 1) := by
  cases chunks with
  | nil => exact absurd h (by simp [wrap_step])
  | cons top rest0 =>
      unfold wrap_step at h
      dsimp only at h
      rw [apply_ite Prod.fst] at h
      dsimp only at h
      set indent : List Char := (if hl then sub else []) with hind
      set widthI : Int := ((w : Int) - indent.length) with hwid
      set chunks1 := (if strip_is_empty top && hl then rest0 else top :: rest0)
        with hch1
      set curB := (fill_line widthI chunks1).1 with hcb
      split at h
      · exact absurd h (by simp)
      · have hline : line = indent ++
            (match curB.getLast? with
              | some lc => if strip_is_empty lc then curB.dropLast else curB
              | none => curB).flatten := by
          exact (Option.some.inj h).symm
        have hsum := cur_drop_sum_le curB
        have hfst := fill_line_fst_sum widthI chunks1
        have hlen : line.length = indent.length +
            ((match curB.getLast? with
              | some lc => if strip_is_empty lc then curB.dropLast else curB
              | none => curB).map List.length).sum := by
          rw [hline]
          simp [List.length_flatten]
        by_cases hpos : 1 ≤ widthI
        · have hle1 : ((curB.map List.length).sum : Int) ≤ widthI := by
            rw [hcb]
            exact hfst.1 hpos
          have hindw : (indent.length : Int) + widthI = w := by
            rw [hwid]; omega
          omega
        · have hle1 : (curB.map List.length).sum ≤ 1 := by
            rw [hcb]
            exact hfst.2 (by omega)
          have hindle : indent.length ≤ sub.length := by
            rw [hind]
            by_cases hhl : hl = true <;> simp [hhl]
          omega

/-- Every line in the output of the `_wrap_chunks` loop is bounded by
`max width (len(subsequent_indent) + 1)`. -/
theorem wrap_chunks_go_mem_length (w : Nat) (hw : 1 ≤ w) (sub : List Char) :
    ∀ (fuel : Nat) (chunks : List (List Char)) (hl : Bool)
      (ls : List (List Char)),
      wrap_chunks_go w sub fuel chunks hl = some ls →
      ∀ l ∈ ls, l.length ≤ max w (sub.length + 1) := by
  intro fuel
  induction fuel with
  | zero =>
      intro chunks hl ls h l hm
      cases chunks with
      | nil =>
          simp only [wrap_chunks_go] at h
          cases h
          simp at hm
      | cons top rest0 => simp [wrap_chunks_go] at h
  | succ f ih =>
      intro chunks hl ls h l hm
      cases chunks with
      | nil =>
          simp only [wrap_chunks_go] at h
          cases h
          simp at hm
      | cons top rest0 =>
          unfold wrap_chunks_go at h
          dsimp only at h
          cases hst : (wrap_step w sub (top :: rest0) hl).1 with
          | none =>
              rw [hst] at h
              exact ih _ _ _ h l hm
          | some line' =>
              rw [hst] at h
              cases hg : wrap_chunks_go w sub f
                  ((wrap_step w sub (top :: rest0) hl).2) true with
              | none => rw [hg] at h; simp at h
              | some ls' =>
                  rw [hg] at h
                  simp only [Option.map_some] at h
                  cases h
                  rcases List.mem_cons.mp hm with hm1 | hm2
                  · subst hm1
                    exact wrap_step_line_length w hw sub (top :: rest0) hl l hst
                  · exact ih _ _ _ hg l hm2

/-- Every chunk returned by `textwrap.wrap` is bounded by
`max width (len(subsequent_indent) + 1)`. -/
theorem textwrap_wrap_mem_length (text : List Char) (w : Nat)
    (sub : List Char) (hw : 1 ≤ w) :
    ∀ c ∈ textwrap_wrap text w sub, c.length ≤ max w (sub.length + 1) := by
  intro c hc
  unfold textwrap_wrap textwrap_wrap_opt at hc
  dsimp only at hc
  cases hg : wrap_chunks_go w sub
      (chunks_measure (wordsep_split (munge_whitespace text)) + 1)
      (wordsep_split (munge_whitespace text)) false with
  | none => rw [hg] at hc; simp at hc
  | some ls =>
      rw [hg] at hc
      simp only [Option.getD_some] at hc
      exact wrap_chunks_go_mem_length w hw sub _ _ false ls hg c hc

/-- **C6, counterexample.** The claim quantifies over every width `w ≥ 1`
and every line. At width `2` and the line `" aaaaaa"` (which starts with
a space, so the call passes the 4-space `subsequent_indent`), the
continuation chunks are `"    a"` of length `5 > 2`, and `"    a"` is not
an unsplittable token of the line (its tokens are `" "` and `"aaaaaa"`),
so the escape clause does not apply either. -/
theorem c6_counterexample :
    1 ≤ 2 ∧
      wrap_line 2 " aaaaaa".data =
        [" a".data, "    a".data, "    a".data, "    a".data, "    a".data,
         "    a".data] ∧
      ¬ (∀ c ∈ wrap_line 2 " aaaaaa".data,
          c.length ≤ 2 ∨ c ∈ wordsep_split (munge_whitespace " aaaaaa".data)) := by
  refine ⟨by norm_num, by decide, by decide⟩

/-- **C6, amended.** For every width `w ≥ 1` and every input line, the
wrap operation terminates (the loop's fuel never runs out); every
returned chunk has length at most `max w 5` (`5` = the 4-space
continuation indent plus the one character each pass is guaranteed to
strip), and when the line does not start with a space — so the
subsequent indent is empty — every chunk has length at most `w`; the
escape clause about unsplittable tokens is never needed because
`break_long_words=True` always breaks them. The concrete scenario holds:
a single line of 300 characters with no whitespace at width 110 wraps to
exactly 3 chunks of lengths 110, 110, 80. -/
theorem c6_wrap_terminates_and_bounds (line : List Char) (w : Nat)
    (hw : 1 ≤ w) :
    (textwrap_wrap_opt line w
        (if line.head? = some ' ' then "    ".data else [])).isSome ∧
      (∀ c ∈ wrap_line w line, c.length ≤ max w 5) ∧
      (line.head? ≠ some ' ' → ∀ c ∈ wrap_line w line, c.length ≤ w) ∧
      (wrap_line 110 (List.replicate 300 'a')).map List.length =
        [110, 110, 80] := by
  refine ⟨textwrap_wrap_opt_isSome line w _ hw, ?_, ?_, by decide⟩
  · intro c hc
    have hb := textwrap_wrap_mem_length line w
      (if line.head? = some ' ' then "    ".data else []) hw c hc
    by_cases hs : line.head? = some ' '
    · rw [if_pos hs] at hb
      simpa using hb
    · rw [if_neg hs] at hb
      simp only [List.length_nil] at hb
      omega
  · intro hs c hc
    unfold wrap_line at hc
    rw [if_neg hs] at hc
    have hb := textwrap_wrap_mem_length line w [] hw c hc
    simp only [List.length_nil] at hb
    omega

/-- Witness for `c6_wrap_terminates_and_bounds` at width 3 and the line
`"hello"`. -/
theorem c6_wrap_terminates_and_bounds_witness :
    (textwrap_wrap_opt "hello".data 3
        (if ("hello".data).head? = some ' ' then "    ".data else [])).isSome ∧
      (∀ c ∈ wrap_line 3 "hello".data, c.length ≤ max 3 5) ∧
      (("hello".data).head? ≠ some ' ' →
        ∀ c ∈ wrap_line 3 "hello".data, c.length ≤ 3) ∧
      (wrap_line 110 (List.replicate 300 'a')).map List.length =
        [110, 110, 80] :=
  c6_wrap_terminates_and_bounds "hello".data 3 (by norm_num)

/-- **C7, counterexample.** The claim covers lines beginning with *any*
whitespace character, but line 75 tests `line.startswith(' ')`, a literal
space: a line starting with a tab gets an empty `subsequent_indent`
(after tab expansion the text begins with eight spaces but the indent
marker is absent). For `"\t" + "a"*120` at width 110, the second chunk is
`"a"*18`, not prefixed with the 4-space marker. -/
theorem c7_counterexample :
    is_py_whitespace '\t' = true ∧
      ('\t' :: List.replicate 120 'a').length > 110 ∧
      (wrap_line 110 ('\t' :: List.replicate 120 'a')).drop 1 =
        [List.replicate 18 'a'] ∧
      ¬ (∀ l ∈ (wrap_line 110 ('\t' :: List.replicate 120 'a')).drop 1,
          l.take 4 = "    ".data) := by
  refine ⟨rfl, by simp, by decide, by decide⟩

/-- Once lines exist, every further line `_wrap_chunks` emits begins with
the subsequent indent. -/
theorem wrap_step_line_shape (w : Nat) (sub : List Char)
    (chunks : List (List Char)) (hl : Bool) (line : List Char)
    (h : (wrap_step w sub chunks hl).1 = some line) :
    ∃ t, line = (if hl then sub else []) ++ t := by
  cases chunks with
  | nil => exact absurd h (by simp [wrap_step])
  | cons top rest0 =>
      unfold wrap_step at h
      dsimp only at h
      rw [apply_ite Prod.fst] at h
      dsimp only at h
      set indent : List Char := (if hl then sub else []) with hind
      set widthI : Int := ((w : Int) - indent.length) with hwid
      set chunks1 := (if strip_is_empty top && hl then rest0 else top :: rest0)
        with hch1
      set curB := (fill_line widthI chunks1).1 with hcb
      split at h
      · exact absurd h (by simp)
      · exact ⟨_, (Option.some.inj h).symm⟩

/-- Once lines exist (`hasLines = true`), the emitted line begins with
the subsequent indent. -/
theorem wrap_step_line_sub (w : Nat) (sub : List Char)
    (chunks : List (List Char)) (line : List Char)
    (h : (wrap_step w sub chunks true).1 = some line) :
    ∃ t, line = sub ++ t := by
  have := wrap_step_line_shape w sub chunks true line h
  simpa using this

/-- All lines of a `_wrap_chunks` run that already has lines begin with
the subsequent indent. -/
theorem wrap_chunks_go_sub_all (w : Nat) (sub : List Char) :
    ∀ (fuel : Nat) (chunks : List (List Char)) (ls : List (List Char)),
      wrap_chunks_go w sub fuel chunks true = some ls →
      ∀ l ∈ ls, ∃ t, l = sub ++ t := by
  intro fuel
  induction fuel with
  | zero =>
      intro chunks ls h l hm
      cases chunks with
      | nil => simp only [wrap_chunks_go] at h; cases h; simp at hm
      | cons top rest0 => simp [wrap_chunks_go] at h
  | succ f ih =>
      intro chunks ls h l hm
      cases chunks with
      | nil => simp only [wrap_chunks_go] at h; cases h; simp at hm
      | cons top rest0 =>
          unfold wrap_chunks_go at h
          dsimp only at h
          cases hst : (wrap_step w sub (top :: rest0) true).1 with
          | none =>
              rw [hst] at h
              exact ih _ _ h l hm
          | some line' =>
              rw [hst] at h
              cases hg : wrap_chunks_go w sub f
                  ((wrap_step w sub (top :: rest0) true).2) true with
              | none => rw [hg] at h; simp at h
              | some ls' =>
                  rw [hg] at h
                  simp only [Option.map_some] at h
                  cases h
                  rcases List.mem_cons.mp hm with hm1 | hm2
                  · subst hm1
                    exact wrap_step_line_sub w sub (top :: rest0) l hst
                  · exact ih _ _ hg l hm2

/-- All lines after the first of a fresh `_wrap_chunks` run begin with
the subsequent indent. -/
theorem wrap_chunks_go_sub_tail (w : Nat) (sub : List Char) :
    ∀ (fuel : Nat) (chunks : List (List Char)) (ls : List (List Char)),
      wrap_chunks_go w sub fuel chunks false = some ls →
      ∀ l ∈ ls.drop 1, ∃ t, l = sub ++ t := by
  intro fuel
  induction fuel with
  | zero =>
      intro chunks ls h l hm
      cases chunks with
      | nil => simp only [wrap_chunks_go] at h; cases h; simp at hm
      | cons top rest0 => simp [wrap_chunks_go] at h
  | succ f ih =>
      intro chunks ls h l hm
      cases chunks with
      | nil => simp only [wrap_chunks_go] at h; cases h; simp at hm
      | cons top rest0 =>
          unfold wrap_chunks_go at h
          dsimp only at h
          cases hst : (wrap_step w sub (top :: rest0) false).1 with
          | none =>
              rw [hst] at h
              exact ih _ _ h l hm
          | some line' =>
              rw [hst] at h
              cases hg : wrap_chunks_go w sub f
                  ((wrap_step w sub (top :: rest0) false).2) true with
              | none => rw [hg] at h; simp at h
              | some ls' =>
                  rw [hg] at h
                  simp only [Option.map_some] at h
                  cases h
                  simp only [List.drop_one, List.tail_cons] at hm
                  exact wrap_chunks_go_sub_all w sub f _ ls' hg l hm

/-- **C7, amended.** For every line that begins with a *space* character
(`line.startswith(' ')` on line 75 tests exactly the space, not arbitrary
whitespace), every chunk after the first returned by the wrap call is
prefixed with the fixed 4-space indent marker. (Lines beginning with
other whitespace, e.g. a tab, get an empty subsequent indent — see the
counterexample.) -/
theorem c7_continuation_indent (line : List Char) (w : Nat)
    (hs : line.head? = some ' ') :
    ∀ l ∈ (wrap_line w line).drop 1, ∃ t, l = "    ".data ++ t := by
  intro l hl
  unfold wrap_line textwrap_wrap textwrap_wrap_opt at hl
  rw [if_pos hs] at hl
  dsimp only at hl
  cases hg : wrap_chunks_go w "    ".data
      (chunks_measure (wordsep_split (munge_whitespace line)) + 1)
      (wordsep_split (munge_whitespace line)) false with
  | none => rw [hg] at hl; simp at hl
  | some ls =>
      rw [hg] at hl
      simp only [Option.getD_some] at hl
      exact wrap_chunks_go_sub_tail w "    ".data _ _ ls hg l hl

/-- Witness for `c7_continuation_indent`: the second chunk of wrapping
`" aaaaaa"` at width 2 carries the 4-space marker. -/
theorem c7_continuation_indent_witness :
    ∃ t, "    a".data = "    ".data ++ t :=
  c7_continuation_indent " aaaaaa".data 2 (by decide) "    a".data (by decide)

/-- **C8, counterexample.** A whitespace-only line such as `"   "` is
non-empty and within the width, but line 67-68 emit a blank row
(`self.ln`) for it instead of the line itself; and `textwrap.wrap`
applied to a short chunk with trailing whitespace drops that whitespace
(`wrap("a ") = ["a"]`), so neither half of the claim holds as stated. -/
theorem c8_counterexample :
    "   ".data ≠ [] ∧ ("   ".data).length ≤ 110 ∧
      write_code_block 110 "   ".data = [Row.blank] ∧
      write_code_block 110 "   ".data ≠ [Row.text "   ".data] ∧
      textwrap_wrap "a ".data 110 [] ≠ ["a ".data] := by
  refine ⟨by decide, by decide, by decide, by decide, by decide⟩

/-- `expandtabs` is the identity on tab-free text. -/
theorem expandtabs_id (tabsize : Nat) :
    ∀ (s : List Char), (∀ ch ∈ s, ch ≠ '\t') →
      ∀ col, expandtabs_go tabsize col s = s := by
  intro s
  induction s with
  | nil => intro _ col; rfl
  | cons c rest ih =>
      intro h col
      unfold expandtabs_go
      have hc : ¬ (c = '\t') := h c (by simp)
      rw [if_neg hc]
      by_cases hnr : (c = '\n' || c = '\r') = true
      · rw [if_pos hnr, ih (fun ch hm => h ch (by simp [hm])) 0]
      · rw [if_neg hnr, ih (fun ch hm => h ch (by simp [hm])) (col + 1)]

/-- `_munge_whitespace` is the identity on text whose only recognized
whitespace characters are plain spaces. -/
theorem munge_whitespace_id (s : List Char)
    (h : ∀ ch ∈ s, is_py_whitespace ch = true → ch = ' ') :
    munge_whitespace s = s := by
  unfold munge_whitespace
  have htab : ∀ ch ∈ s, ch ≠ '\t' := by
    intro ch hm he
    subst he
    have := h '\t' hm (by decide)
    cases this
  rw [expandtabs_id 8 s htab 0]
  have : ∀ ch ∈ s, (if is_py_whitespace ch then ' ' else ch) = ch := by
    intro ch hm
    by_cases hw : is_py_whitespace ch = true
    · rw [if_pos hw, h ch hm hw]
    · rw [if_neg hw]
  calc s.map (fun c => if is_py_whitespace c then ' ' else c)
      = s.map id := List.map_congr_left this
    _ = s := List.map_id s

/-- The chunks of `split_go` concatenate back to the pending chunk plus
the remaining text: `wordsep_re.split` partitions its input. -/
theorem split_go_flatten :
    ∀ (s beforeRev curRev : List Char) (mode : ChunkMode),
      (split_go beforeRev curRev mode s).flatten = curRev.reverse ++ s := by
  intro s
  induction s with
  | nil =>
      intro br cr m
      unfold split_go
      by_cases h : cr.isEmpty = true
      · have hcr : cr = [] := List.isEmpty_iff.mp h
        rw [if_pos h]
        simp [hcr]
      · rw [if_neg h]
        simp
  | cons c rest ih =>
      intro br cr m
      unfold split_go
      by_cases h : cr.isEmpty = true
      · have hcr : cr = [] := List.isEmpty_iff.mp h
        rw [if_pos h, ih]
        simp [hcr]
      · rw [if_neg h]
        cases m with
        | ws =>
            dsimp only
            by_cases hw : is_py_whitespace c = true
            · rw [if_pos hw, ih]
              simp
            · rw [if_neg hw]
              simp only [List.flatten_cons]
              rw [ih]
              simp
        | hyphens =>
            dsimp only
            by_cases hh : (c = '-')
            · rw [if_pos hh, ih]
              simp
            · rw [if_neg hh]
              simp only [List.flatten_cons]
              rw [ih]
              simp
        | word =>
            dsimp only
            by_cases h1 : (decide (c = '-') && hyphen_behind br &&
                hyphen_ahead rest) = true
            · rw [if_pos h1]
              simp only [List.flatten_cons]
              rw [ih]
              have hc : c = '-' := by
                simp only [Bool.and_eq_true, decide_eq_true_eq] at h1
                exact h1.1.1
              simp [hc]
            · rw [if_neg h1]
              by_cases hw : is_py_whitespace c = true
              · rw [if_pos hw]
                simp only [List.flatten_cons]
                rw [ih]
                simp
              · rw [if_neg hw]
                by_cases h3 : (is_word_punct (br.headD ' ') &&
                    em_dash_ahead c rest) = true
                · rw [if_pos h3]
                  simp only [List.flatten_cons]
                  rw [ih]
                  simp
                · rw [if_neg h3, ih]
                  simp

/-- `wordsep_split` partitions the text. -/
theorem wordsep_split_flatten (text : List Char) :
    (wordsep_split text).flatten = text := by
  unfold wordsep_split
  rw [split_go_flatten]
  rfl

/-- Every chunk `split_go` emits is non-empty (`_split` filters out empty
strings; here no empty chunk is ever produced). -/
theorem split_go_ne_nil :
    ∀ (s beforeRev curRev : List Char) (mode : ChunkMode) (c : List Char),
      c ∈ split_go beforeRev curRev mode s → c ≠ [] := by
  intro s
  induction s with
  | nil =>
      intro br cr m c hc
      unfold split_go at hc
      by_cases h : cr.isEmpty = true
      · rw [if_pos h] at hc
        simp at hc
      · rw [if_neg h] at hc
        rw [List.mem_singleton] at hc
        subst hc
        simp only [ne_eq, List.reverse_eq_nil_iff]
        intro he
        rw [he] at h
        simp at h
  | cons x rest ih =>
      intro br cr m c hc
      unfold split_go at hc
      by_cases h : cr.isEmpty = true
      · rw [if_pos h] at hc
        exact ih _ _ _ c hc
      · rw [if_neg h] at hc
        have hcrne : cr.reverse ≠ [] := by
          simp only [ne_eq, List.reverse_eq_nil_iff]
          intro he
          rw [he] at h
          simp at h
        cases m with
        | ws =>
            dsimp only at hc
            by_cases hw : is_py_whitespace x = true
            · rw [if_pos hw] at hc
              exact ih _ _ _ c hc
            · rw [if_neg hw] at hc
              rcases List.mem_cons.mp hc with hc | hc
              · subst hc; exact hcrne
              · exact ih _ _ _ c hc
        | hyphens =>
            dsimp only at hc
            by_cases hh : (x = '-')
            · rw [if_pos hh] at hc
              exact ih _ _ _ c hc
            · rw [if_neg hh] at hc
              rcases List.mem_cons.mp hc with hc | hc
              · subst hc; exact hcrne
              · exact ih _ _ _ c hc
        | word =>
            dsimp only at hc
            by_cases h1 : (decide (x = '-') && hyphen_behind br &&
                hyphen_ahead rest) = true
            · rw [if_pos h1] at hc
              rcases List.mem_cons.mp hc with hc | hc
              · subst hc; simp
              · exact ih _ _ _ c hc
            · rw [if_neg h1] at hc
              by_cases hw : is_py_whitespace x = true
              · rw [if_pos hw] at hc
                rcases List.mem_cons.mp hc with hc | hc
                · subst hc; exact hcrne
                · exact ih _ _ _ c hc
              · rw [if_neg hw] at hc
                by_cases h3 : (is_word_punct (br.headD ' ') &&
                    em_dash_ahead x rest) = true
                · rw [if_pos h3] at hc
                  rcases List.mem_cons.mp hc with hc | hc
                  · subst hc; exact hcrne
                  · exact ih _ _ _ c hc
                · rw [if_neg h3] at hc
                  exact ih _ _ _ c hc

/-- When everything fits in the budget, `take_fits` pops all chunks. -/
theorem take_fits_all (W : Int) :
    ∀ (l : List (List Char)) (n : Nat),
      ((n : Int) + ((l.map List.length).sum : Int) ≤ W) →
      take_fits W n l = (l, n + ((l.map List.length).sum), []) := by
  intro l
  induction l with
  | nil => intro n _; simp [take_fits]
  | cons c cs ih =>
      intro n h
      have hsum : ((c :: cs).map List.length).sum =
          c.length + ((cs.map List.length).sum) := by simp
      have hfit : ((n : Int) + c.length ≤ W) := by
        rw [hsum] at h
        omega
      unfold take_fits
      rw [if_pos hfit]
      rw [ih (n + c.length) (by rw [hsum] at h; omega)]
      rw [hsum]
      simp only [Prod.mk.injEq]
      refine ⟨trivial, by omega, trivial⟩

/-- When every chunk fits in the width on a fresh run and the trailing
chunk is not all-whitespace, the first `_wrap_chunks` iteration emits the
concatenation of all the chunks and leaves nothing behind. -/
theorem wrap_step_all_fits (w : Nat) (sub : List Char) (top : List Char)
    (rest : List (List Char))
    (hsum : (((top :: rest).map List.length).sum) ≤ w)
    (hlast : strip_is_empty ((top :: rest).getLast (List.cons_ne_nil top rest)) =
      false) :
    wrap_step w sub (top :: rest) false = (some ((top :: rest).flatten), []) := by
  unfold wrap_step
  dsimp only
  simp only [Bool.and_false, Bool.false_eq_true, if_false, List.length_nil,
    Nat.cast_zero, sub_zero]
  have htf := take_fits_all ((w : Int)) (top :: rest) 0
    (by
      have : ((((top :: rest).map List.length).sum : Nat) : Int) ≤ (w : Int) := by
        exact_mod_cast hsum
      omega)
  unfold fill_line
  rw [htf]
  dsimp only
  rw [List.getLast?_eq_getLast (top :: rest) (List.cons_ne_nil top rest)]
  dsimp only
  rw [if_neg (by rw [hlast]; simp : ¬ (strip_is_empty
    ((top :: rest).getLast (List.cons_ne_nil top rest)) = true))]
  rw [if_neg (by simp : ¬ ((top :: rest).isEmpty = true))]
  simp

/-- **C8, amended.** Idempotence on short input holds for genuinely
non-blank lines and whitespace-clean chunks: a line with some
non-whitespace content and length within the width is emitted unchanged
as a single row; a whitespace-only line is emitted as a single *blank*
row (the spaces are dropped); and `textwrap.wrap` applied to a non-empty
string within the width returns it unchanged provided its recognized
whitespace characters are plain spaces and it does not end in whitespace
(wrap munges tabs and drops trailing whitespace, so the literal
"any chunk" claim fails — chunks produced by the wrapper itself satisfy
these conditions). -/
theorem c8_short_line_and_wrap_identity :
    (∀ (w : Nat) (line : List Char), strip_is_empty line = false →
        line.length ≤ w → emit_line w line = [Row.text line]) ∧
      (∀ (w : Nat) (line : List Char), strip_is_empty line = true →
        emit_line w line = [Row.blank]) ∧
      (∀ (c : List Char) (w : Nat) (sub : List Char),
        c ≠ [] →
        (∀ ch ∈ c, is_py_whitespace ch = true → ch = ' ') →
        (∀ x, c.getLast? = some x → is_py_whitespace x = false) →
        c.length ≤ w →
        textwrap_wrap c w sub = [c]) := by
  refine ⟨?_, ?_, ?_⟩
  · intro w line hstrip hlen
    unfold emit_line
    rw [if_neg (by rw [hstrip]; simp : ¬ (strip_is_empty line = true))]
    rw [if_neg (by omega)]
  · intro w line hstrip
    unfold emit_line
    rw [if_pos hstrip]
  · intro c w sub hne hch hlast hlen
    have hmunge := munge_whitespace_id c hch
    unfold textwrap_wrap textwrap_wrap_opt
    dsimp only
    rw [hmunge]
    have hflat : (wordsep_split c).flatten = c := wordsep_split_flatten c
    have hnn : ∀ x ∈ wordsep_split c, x ≠ [] :=
      fun x hx => split_go_ne_nil c [] [] .word x hx
    have hchne : wordsep_split c ≠ [] := by
      intro h0
      rw [h0] at hflat
      exact hne hflat.symm
    obtain ⟨top, rest, hcr⟩ := List.exists_cons_of_ne_nil hchne
    have hflat' : (top :: rest).flatten = c := by rw [← hcr]; exact hflat
    have hsum : (((top :: rest).map List.length).sum) ≤ w := by
      have : ((top :: rest).map List.length).sum = c.length := by
        rw [← hflat', List.length_flatten]
      omega
    have hlastchunk : strip_is_empty
        ((top :: rest).getLast (List.cons_ne_nil top rest)) = false := by
      set lc := (top :: rest).getLast (List.cons_ne_nil top rest) with hlc
      have hmem : lc ∈ top :: rest := List.getLast_mem _
      have hlcne : lc ≠ [] := by
        rw [hcr] at hnn
        exact hnn lc hmem
      have hlastq : lc.getLast? = some (lc.getLast hlcne) :=
        List.getLast?_eq_getLast lc hlcne
      have hdl := List.dropLast_append_getLast (l := top :: rest)
        (List.cons_ne_nil top rest)
      rw [← hlc] at hdl
      have hcl : c.getLast? = lc.getLast? := by
        rw [← hflat', ← hdl]
        rw [List.flatten_append]
        simp only [List.flatten_cons, List.flatten_nil, List.append_nil]
        exact List.getLast?_append_of_ne_nil _ hlcne
      have hxws : is_py_whitespace (lc.getLast hlcne) = false :=
        hlast _ (by rw [hcl, hlastq])
      by_contra hstrip
      have hstrip2 : strip_is_empty lc = true := by
        revert hstrip
        cases strip_is_empty lc <;> simp
      have hallws : ∀ ch ∈ lc, is_py_whitespace ch = true := by
        intro ch hm
        have h0 : lc.all is_py_whitespace = true := hstrip2
        exact List.all_eq_true.mp h0 ch hm
      have hg := hallws (lc.getLast hlcne) (List.getLast_mem hlcne)
      rw [hg] at hxws
      cases hxws
    have hstep := wrap_step_all_fits w sub top rest hsum hlastchunk
    rw [hcr]
    unfold wrap_chunks_go
    dsimp only
    rw [hstep]
    dsimp only
    rw [show wrap_chunks_go w sub (chunks_measure (top :: rest)) [] true =
      some [] from by cases h : chunks_measure (top :: rest) <;>
        simp [wrap_chunks_go]]
    simp [hflat']

/-- Witness for `c8_short_line_and_wrap_identity`: the three parts at
concrete inputs — a short code line is emitted verbatim, a blank line
becomes a blank row, and `wrap` returns a clean short string unchanged. -/
theorem c8_short_line_and_wrap_identity_witness :
    emit_line 110 "x = 1".data = [Row.text "x = 1".data] ∧
      emit_line 110 "   ".data = [Row.blank] ∧
      textwrap_wrap "ab cd".data 110 [] = ["ab cd".data] :=
  ⟨c8_short_line_and_wrap_identity.1 110 "x = 1".data (by decide) (by decide),
   c8_short_line_and_wrap_identity.2.1 110 "   ".data (by decide),
   c8_short_line_and_wrap_identity.2.2 "ab cd".data 110 [] (by decide)
     (by decide) (by decide) (by decide)⟩

/-- **C10.** Font handling: if the font file is on disk,
`ensure_font_exists` never exits regardless of the network; if it is
missing and the download succeeds, the run continues; only a failed
download of a missing font exits with code 1. If registering the font
with the document fails, `CodePDF.__init__` catches the error and falls
back to the built-in Courier font at the same size 8, returning normally
so that assembly continues. -/
theorem c10_font_fallback_and_exit :
    (∀ d : Bool, (ensure_font_exists true d).2 = none) ∧
      (ensure_font_exists false true).2 = none ∧
      (ensure_font_exists false false).2 = some 1 ∧
      (codepdf_init_font false).2 = FontSetting.courier 8 ∧
      (codepdf_init_font true).2 = FontSetting.dejavu 8 := by
  refine ⟨fun d => ?_, rfl, rfl, rfl, rfl⟩
  cases d <;> rfl

end PdfZipper
